import Mathlib

set_option maxHeartbeats 1600000
set_option maxRecDepth 4096

/-!
Verification of listMissingLibs (src/list_missing_libs.py).

The development shallowly embeds the program:
a small regular-expression engine giving the exact semantics of the
somatching pattern used by BrokenFinder.enumerate_shared_libs, a model of a
filesystem snapshot, the enumeration / extraction / check pipeline of class
BrokenFinder, and a queue transition system for the worker thread driven by
BrokenFinder.check.
-/

/-!
## Regular expressions

BrokenFinder.enumerate_shared_libs filters filenames with
re.match(somatching, fname) where somatching is the verbose-mode pattern
consisting of the two alternatives dot-star backslash-dot s o backslash-Z
and dot-star backslash-dot s o (backslash-dot backslash-d plus) plus.
The RE type below gives exactly the constructs used there: the any
constructor models the dot of Python re, which matches every character
except the newline; digit models the decimal-digit class (the model
restricts the alphabet to ASCII digits).
-/

inductive RE where
  | nul : RE
  | eps : RE
  | any : RE
  | lit : Char → RE
  | digit : RE
  | cat : RE → RE → RE
  | alt : RE → RE → RE
  | star : RE → RE
deriving DecidableEq

def RE.nullable : RE → Bool
  | .nul => false
  | .eps => true
  | .any => false
  | .lit _ => false
  | .digit => false
  | .cat a b => a.nullable && b.nullable
  | .alt a b => a.nullable || b.nullable
  | .star _ => true

def RE.deriv : RE → Char → RE
  | .nul, _ => .nul
  | .eps, _ => .nul
  | .any, c => if c = '\n' then .nul else .eps
  | .lit a, c => if a = c then .eps else .nul
  | .digit, c => if c.isDigit then .eps else .nul
  | .cat a b, c => if a.nullable then .alt (.cat (a.deriv c) b) (b.deriv c) else .cat (a.deriv c) b
  | .alt a b, c => .alt (a.deriv c) (b.deriv c)
  | .star a, c => .cat (a.deriv c) (.star a)

/-- Full match of a regular expression against a whole character list,
by Brzozowski derivatives.  This is the semantics of the first alternative
of somatching, whose backslash-Z anchors the match at the end. -/
def RE.fmatch : RE → List Char → Bool
  | r, [] => r.nullable
  | r, c :: cs => (r.deriv c).fmatch cs

/-- Match of a regular expression against some prefix of a character list.
This is what Python re.match does for a pattern without an end anchor:
the second alternative of somatching is matched this way. -/
def RE.pmatch : RE → List Char → Bool
  | r, [] => r.nullable
  | r, c :: cs => r.nullable || (r.deriv c).pmatch cs

/-- Declarative language membership for the regular expressions. -/
inductive RE.Mem : RE → List Char → Prop where
  | eps : RE.Mem .eps []
  | any {c : Char} : c ≠ '\n' → RE.Mem .any [c]
  | lit {c : Char} : RE.Mem (.lit c) [c]
  | digit {c : Char} : c.isDigit = true → RE.Mem .digit [c]
  | cat {a b : RE} {l1 l2 : List Char} :
      RE.Mem a l1 → RE.Mem b l2 → RE.Mem (.cat a b) (l1 ++ l2)
  | altL {a b : RE} {l : List Char} : RE.Mem a l → RE.Mem (.alt a b) l
  | altR {a b : RE} {l : List Char} : RE.Mem b l → RE.Mem (.alt a b) l
  | starNil {a : RE} : RE.Mem (.star a) []
  | starCons {a : RE} {l1 l2 : List Char} :
      RE.Mem a l1 → RE.Mem (.star a) l2 → RE.Mem (.star a) (l1 ++ l2)

theorem RE.mem_nil_nullable {r : RE} {l : List Char} (h : RE.Mem r l) :
    l = [] → r.nullable = true := by
  induction h with
  | eps => intro _; rfl
  | any _ => intro hl; simp at hl
  | lit => intro hl; simp at hl
  | digit _ => intro hl; simp at hl
  | cat _ _ ih1 ih2 =>
      intro hl
      rcases List.append_eq_nil.mp hl with ⟨h3, h4⟩
      simp [RE.nullable, ih1 h3, ih2 h4]
  | altL _ ih => intro hl; simp [RE.nullable, ih hl]
  | altR _ ih => intro hl; simp [RE.nullable, ih hl]
  | starNil => intro _; rfl
  | starCons _ _ _ _ => intro _; rfl

theorem RE.nullable_iff {r : RE} : r.nullable = true ↔ RE.Mem r [] := by
  constructor
  · intro h
    induction r with
    | nul => simp [RE.nullable] at h
    | eps => exact RE.Mem.eps
    | any => simp [RE.nullable] at h
    | lit c => simp [RE.nullable] at h
    | digit => simp [RE.nullable] at h
    | cat a b iha ihb =>
        simp [RE.nullable] at h
        have := RE.Mem.cat (iha h.1) (ihb h.2)
        simpa using this
    | alt a b iha ihb =>
        simp [RE.nullable] at h
        rcases h with h | h
        · exact RE.Mem.altL (iha h)
        · exact RE.Mem.altR (ihb h)
    | star a _ => exact RE.Mem.starNil
  · intro h; exact RE.mem_nil_nullable h rfl

theorem RE.deriv_cat_pos {a b : RE} {c : Char} (hn : a.nullable = true) :
    (RE.cat a b).deriv c = RE.alt (RE.cat (a.deriv c) b) (b.deriv c) := by
  simp [RE.deriv, hn]

theorem RE.deriv_cat_neg {a b : RE} {c : Char} (hn : ¬ a.nullable = true) :
    (RE.cat a b).deriv c = RE.cat (a.deriv c) b := by
  simp [RE.deriv, hn]

theorem RE.deriv_sound {c : Char} {r : RE} :
    ∀ {l : List Char}, RE.Mem (r.deriv c) l → RE.Mem r (c :: l) := by
  induction r with
  | nul => intro l h; simp only [RE.deriv] at h; cases h
  | eps => intro l h; simp only [RE.deriv] at h; cases h
  | any =>
      intro l h
      simp only [RE.deriv] at h
      by_cases hc : c = '\n'
      · simp only [hc, if_pos rfl] at h; cases h
      · rw [if_neg hc] at h
        cases h
        exact RE.Mem.any hc
  | lit a =>
      intro l h
      simp only [RE.deriv] at h
      by_cases ha : a = c
      · rw [if_pos ha] at h
        cases h
        subst ha
        exact RE.Mem.lit
      · rw [if_neg ha] at h; cases h
  | digit =>
      intro l h
      simp only [RE.deriv] at h
      by_cases hd : c.isDigit
      · rw [if_pos hd] at h
        cases h
        exact RE.Mem.digit hd
      · rw [if_neg hd] at h; cases h
  | cat a b iha ihb =>
      intro l h
      by_cases hn : a.nullable = true
      · rw [RE.deriv_cat_pos hn] at h
        cases h with
        | altL h1 =>
            cases h1 with
            | cat h2 h3 =>
                have := RE.Mem.cat (iha h2) h3
                simpa using this
        | altR h1 =>
            have := RE.Mem.cat (RE.nullable_iff.mp hn) (ihb h1)
            simpa using this
      · rw [RE.deriv_cat_neg hn] at h
        cases h with
        | cat h2 h3 =>
            have := RE.Mem.cat (iha h2) h3
            simpa using this
  | alt a b iha ihb =>
      intro l h
      simp only [RE.deriv] at h
      cases h with
      | altL h1 => exact RE.Mem.altL (iha h1)
      | altR h1 => exact RE.Mem.altR (ihb h1)
  | star a iha =>
      intro l h
      simp only [RE.deriv] at h
      cases h with
      | cat h1 h2 =>
          have := RE.Mem.starCons (iha h1) h2
          simpa using this

theorem RE.deriv_complete {r : RE} {m : List Char} (h : RE.Mem r m) :
    ∀ {c : Char} {l : List Char}, m = c :: l → RE.Mem (r.deriv c) l := by
  induction h with
  | eps => intro c l hl; simp at hl
  | @any c0 hc0 =>
      intro c l hl
      injection hl with h1 h2
      subst h1; subst h2
      simp only [RE.deriv]
      rw [if_neg hc0]
      exact RE.Mem.eps
  | @lit c0 =>
      intro c l hl
      injection hl with h1 h2
      subst h1; subst h2
      simp only [RE.deriv, if_pos rfl]
      exact RE.Mem.eps
  | @digit c0 hd =>
      intro c l hl
      injection hl with h1 h2
      subst h1; subst h2
      simp only [RE.deriv]
      rw [if_pos hd]
      exact RE.Mem.eps
  | @cat a b l1 l2 h1 h2 ih1 ih2 =>
      intro c l hl
      cases l1 with
      | nil =>
          simp only [List.nil_append] at hl
          have hn : a.nullable = true := RE.nullable_iff.mpr h1
          rw [RE.deriv_cat_pos hn]
          exact RE.Mem.altR (ih2 hl)
      | cons x xs =>
          rw [List.cons_append] at hl
          injection hl with hx hrest
          subst hx
          subst hrest
          by_cases hn : a.nullable = true
          · rw [RE.deriv_cat_pos hn]
            exact RE.Mem.altL (RE.Mem.cat (ih1 rfl) h2)
          · rw [RE.deriv_cat_neg hn]
            exact RE.Mem.cat (ih1 rfl) h2
  | altL _ ih =>
      intro c l hl
      simp only [RE.deriv]
      exact RE.Mem.altL (ih hl)
  | altR _ ih =>
      intro c l hl
      simp only [RE.deriv]
      exact RE.Mem.altR (ih hl)
  | starNil => intro c l hl; simp at hl
  | @starCons a l1 l2 h1 h2 ih1 ih2 =>
      intro c l hl
      cases l1 with
      | nil =>
          simp only [List.nil_append] at hl
          exact ih2 hl
      | cons x xs =>
          rw [List.cons_append] at hl
          injection hl with hx hrest
          subst hx
          subst hrest
          simp only [RE.deriv]
          exact RE.Mem.cat (ih1 rfl) h2

theorem RE.fmatch_iff : ∀ (l : List Char) (r : RE), r.fmatch l = true ↔ RE.Mem r l := by
  intro l
  induction l with
  | nil => intro r; simpa [RE.fmatch] using RE.nullable_iff
  | cons c cs ih =>
      intro r
      constructor
      · intro h
        exact RE.deriv_sound ((ih (r.deriv c)).mp (by simpa [RE.fmatch] using h))
      · intro h
        simpa [RE.fmatch] using (ih (r.deriv c)).mpr (RE.deriv_complete h rfl)

theorem RE.pmatch_iff : ∀ (l : List Char) (r : RE),
    r.pmatch l = true ↔ ∃ p q, l = p ++ q ∧ RE.Mem r p := by
  intro l
  induction l with
  | nil =>
      intro r
      constructor
      · intro h
        exact ⟨[], [], rfl, RE.nullable_iff.mp (by simpa [RE.pmatch] using h)⟩
      · rintro ⟨p, q, hpq, hm⟩
        have hp : p = [] := (List.append_eq_nil.mp hpq.symm).1
        subst hp
        simpa [RE.pmatch] using RE.nullable_iff.mpr hm
  | cons c cs ih =>
      intro r
      constructor
      · intro h
        rw [show r.pmatch (c :: cs) = (r.nullable || (r.deriv c).pmatch cs) from rfl] at h
        rcases Bool.or_eq_true_iff.mp h with h | h
        · exact ⟨[], c :: cs, rfl, RE.nullable_iff.mp h⟩
        · rcases (ih (r.deriv c)).mp h with ⟨p, q, hpq, hm⟩
          exact ⟨c :: p, q, by simp [hpq], RE.deriv_sound hm⟩
      · rintro ⟨p, q, hpq, hm⟩
        rw [show r.pmatch (c :: cs) = (r.nullable || (r.deriv c).pmatch cs) from rfl]
        cases p with
        | nil =>
            have := RE.nullable_iff.mpr hm
            simp [this]
        | cons x xs =>
            rw [List.cons_append] at hpq
            injection hpq with hx hrest
            subst hx
            have hbody := (ih (r.deriv c)).mpr ⟨xs, q, hrest, RE.deriv_complete hm rfl⟩
            simp [hbody]

/-!
## The concrete somatching pattern

soPat1 is the first alternative (without its end anchor backslash-Z, which
is accounted for by using fmatch, the whole-string matcher); soPat2 is the
second alternative, which has no end anchor in the source and is therefore
matched with pmatch, the prefix matcher, exactly as Python re.match does.
-/

def soTail : RE := RE.cat (RE.lit '.') (RE.cat (RE.lit 's') (RE.lit 'o'))

def soPat1 : RE := RE.cat (RE.star RE.any) soTail

def verChunk : RE := RE.cat (RE.lit '.') (RE.cat RE.digit (RE.star RE.digit))

def verPat : RE := RE.cat verChunk (RE.star verChunk)

def soPat2 : RE := RE.cat soPat1 verPat

/-- The test applied by enumerate_shared_libs to each filename:
re.match(somatching, fname) succeeds, that is, the first alternative
matches the whole name or the second alternative matches some prefix
of it. -/
def soMatch (s : String) : Bool := soPat1.fmatch s.data || soPat2.pmatch s.data

theorem RE.mem_cat_iff {a b : RE} {l : List Char} :
    RE.Mem (RE.cat a b) l ↔ ∃ l1 l2, l = l1 ++ l2 ∧ RE.Mem a l1 ∧ RE.Mem b l2 := by
  constructor
  · intro h
    cases h with
    | cat h1 h2 => exact ⟨_, _, rfl, h1, h2⟩
  · rintro ⟨l1, l2, rfl, h1, h2⟩
    exact RE.Mem.cat h1 h2

theorem RE.mem_alt_iff {a b : RE} {l : List Char} :
    RE.Mem (RE.alt a b) l ↔ RE.Mem a l ∨ RE.Mem b l := by
  constructor
  · intro h
    cases h with
    | altL h1 => exact Or.inl h1
    | altR h1 => exact Or.inr h1
  · rintro (h | h)
    · exact RE.Mem.altL h
    · exact RE.Mem.altR h

theorem RE.mem_lit_iff {c : Char} {l : List Char} :
    RE.Mem (RE.lit c) l ↔ l = [c] := by
  constructor
  · intro h; cases h; rfl
  · rintro rfl; exact RE.Mem.lit

theorem RE.mem_any_iff {l : List Char} :
    RE.Mem RE.any l ↔ ∃ c, l = [c] ∧ c ≠ '\n' := by
  constructor
  · intro h
    cases h with
    | any hc => exact ⟨_, rfl, hc⟩
  · rintro ⟨c, rfl, hc⟩
    exact RE.Mem.any hc

theorem RE.mem_digit_iff {l : List Char} :
    RE.Mem RE.digit l ↔ ∃ c, l = [c] ∧ c.isDigit = true := by
  constructor
  · intro h
    cases h with
    | digit hd => exact ⟨_, rfl, hd⟩
  · rintro ⟨c, rfl, hd⟩
    exact RE.Mem.digit hd

theorem RE.mem_star_any_of_no_nl {l : List Char} (h : '\n' ∉ l) :
    RE.Mem (RE.star RE.any) l := by
  induction l with
  | nil => exact RE.Mem.starNil
  | cons c cs ih =>
      simp only [List.mem_cons, not_or] at h
      have hc : c ≠ '\n' := fun hcc => h.1 hcc.symm
      have := RE.Mem.starCons (RE.Mem.any hc) (ih h.2)
      simpa using this

theorem RE.no_nl_of_mem_star_any {r0 : RE} {l : List Char} (h : RE.Mem r0 l) :
    r0 = RE.star RE.any → '\n' ∉ l := by
  induction h with
  | eps => intro hr; exact absurd hr (by intro hh; cases hh)
  | any _ => intro hr; exact absurd hr (by intro hh; cases hh)
  | lit => intro hr; exact absurd hr (by intro hh; cases hh)
  | digit _ => intro hr; exact absurd hr (by intro hh; cases hh)
  | cat _ _ _ _ => intro hr; exact absurd hr (by intro hh; cases hh)
  | altL _ _ => intro hr; exact absurd hr (by intro hh; cases hh)
  | altR _ _ => intro hr; exact absurd hr (by intro hh; cases hh)
  | starNil => intro _; simp
  | @starCons a l1 l2 h1 _ _ ih2 =>
      intro hr
      injection hr with ha
      subst ha
      rcases RE.mem_any_iff.mp h1 with ⟨c, rfl, hc⟩
      have h2 := ih2 rfl
      simp only [List.cons_append, List.nil_append, List.mem_cons, not_or]
      exact ⟨fun hcc => hc hcc.symm, h2⟩

theorem RE.mem_star_any_iff {l : List Char} :
    RE.Mem (RE.star RE.any) l ↔ '\n' ∉ l :=
  ⟨fun h => RE.no_nl_of_mem_star_any h rfl, RE.mem_star_any_of_no_nl⟩

theorem RE.mem_soTail_iff {l : List Char} :
    RE.Mem soTail l ↔ l = ['.', 's', 'o'] := by
  simp only [soTail, RE.mem_cat_iff, RE.mem_lit_iff]
  constructor
  · rintro ⟨l1, l2, rfl, rfl, l3, l4, rfl, rfl, rfl⟩
    rfl
  · rintro rfl
    exact ⟨['.'], ['s', 'o'], rfl, rfl, ['s'], ['o'], rfl, rfl, rfl⟩

theorem RE.mem_soPat1_iff {l : List Char} :
    RE.Mem soPat1 l ↔ ∃ a, l = a ++ ['.', 's', 'o'] ∧ '\n' ∉ a := by
  simp only [soPat1, RE.mem_cat_iff, RE.mem_star_any_iff, RE.mem_soTail_iff]
  constructor
  · rintro ⟨l1, l2, rfl, h1, rfl⟩
    exact ⟨l1, rfl, h1⟩
  · rintro ⟨a, rfl, ha⟩
    exact ⟨a, ['.', 's', 'o'], rfl, ha, rfl⟩

theorem RE.verPat_shape {v : List Char} (h : RE.Mem verPat v) :
    ∃ d r, v = '.' :: d :: r ∧ d.isDigit = true := by
  rcases RE.mem_cat_iff.mp h with ⟨v1, v2, rfl, h1, _⟩
  rcases RE.mem_cat_iff.mp h1 with ⟨w1, w2, rfl, hw1, hw2⟩
  rcases RE.mem_lit_iff.mp hw1 with rfl
  rcases RE.mem_cat_iff.mp hw2 with ⟨u1, u2, rfl, hu1, _⟩
  rcases RE.mem_digit_iff.mp hu1 with ⟨d, rfl, hd⟩
  exact ⟨d, u2 ++ v2, by simp, hd⟩

theorem RE.verPat_single {d : Char} (hd : d.isDigit = true) :
    RE.Mem verPat ['.', d] := by
  have h1 : RE.Mem verChunk ['.', d] := by
    have := RE.Mem.cat (RE.Mem.lit (c := '.'))
      (RE.Mem.cat (RE.Mem.digit hd) (RE.Mem.starNil (a := RE.digit)))
    simpa [verChunk] using this
  have := RE.Mem.cat h1 (RE.Mem.starNil (a := verChunk))
  simpa [verPat] using this

/-- The set of names accepted by soMatch, spelled out: the name ends in
".so", or it contains ".so." immediately followed by a decimal digit
(because the versioned alternative of the pattern is not anchored at the
end of the name, anything may follow that digit).  The portions matched by
the dot-star must be newline-free, since the Python dot does not match a
newline. -/
def looseSoName (s : String) : Prop :=
  (∃ a : List Char, s.data = a ++ ['.', 's', 'o'] ∧ '\n' ∉ a) ∨
  (∃ (a : List Char) (d : Char) (r : List Char),
      s.data = a ++ ['.', 's', 'o', '.'] ++ d :: r ∧ d.isDigit = true ∧ '\n' ∉ a)

theorem soMatch_iff (s : String) : soMatch s = true ↔ looseSoName s := by
  unfold soMatch looseSoName
  rw [Bool.or_eq_true_iff]
  constructor
  · rintro (h | h)
    · exact Or.inl (RE.mem_soPat1_iff.mp ((RE.fmatch_iff _ _).mp h))
    · right
      rcases (RE.pmatch_iff _ _).mp h with ⟨p, q, hpq, hm⟩
      rcases RE.mem_cat_iff.mp hm with ⟨x, v, rfl, hx, hv⟩
      rcases RE.mem_soPat1_iff.mp hx with ⟨a, rfl, ha⟩
      rcases RE.verPat_shape hv with ⟨d, r0, rfl, hd⟩
      refine ⟨a, d, r0 ++ q, ?_, hd, ha⟩
      rw [hpq]
      simp
  · rintro (⟨a, ha, hnl⟩ | ⟨a, d, r, heq, hd, hnl⟩)
    · exact Or.inl ((RE.fmatch_iff _ _).mpr (RE.mem_soPat1_iff.mpr ⟨a, ha, hnl⟩))
    · right
      apply (RE.pmatch_iff _ _).mpr
      refine ⟨(a ++ ['.', 's', 'o']) ++ ['.', d], r, ?_, ?_⟩
      · rw [heq]; simp
      · exact RE.Mem.cat (RE.mem_soPat1_iff.mpr ⟨a, rfl, hnl⟩) (RE.verPat_single hd)

/-!
## Filesystem snapshot model

A snapshot of what the two traversals of BrokenFinder see.  libFiles lists,
in os.walk order, the files found under the library roots (self.libdirs);
binFiles lists the files found under the binary roots (self.bindirs, the
directories of PATH).  Each entry records the directory it was found in,
its base filename, whether os.path.islink holds for it, and what happens
when collect_needed opens and parses the file at its path.
-/

/-- What opening and parsing the file at a path does, as observed by
BrokenFinder.collect_needed:
elf needed - the open succeeds and pyelftools parses an ELF object whose
dynamic-section DT-NEEDED entries carry the listed names, in section order;
notElf - the open succeeds but parsing raises ELFError;
permDenied - the open raises PermissionError;
otherError - the open or the parse raises any other exception (for example
FileNotFoundError for a file removed after enumeration). -/
inductive Content where
  | elf : List String → Content
  | notElf : Content
  | permDenied : Content
  | otherError : Content
deriving DecidableEq

structure Entry where
  dir : String
  name : String
  isLink : Bool
  content : Content
deriving DecidableEq

structure FS where
  libFiles : List Entry
  binFiles : List Entry
deriving DecidableEq

/-- os.path.join of the walk directory and the base filename. -/
def fullname (e : Entry) : String := e.dir ++ "/" ++ e.name

def FS.allFiles (fs : FS) : List Entry := fs.libFiles ++ fs.binFiles

/-- What the operating system returns when the file at path p is opened:
the content of the entry carrying that full path. -/
def FS.lookup (fs : FS) (p : String) : Option Content :=
  (fs.allFiles.find? (fun e => fullname e == p)).map Entry.content

/-- A snapshot is consistent when entries carrying the same full path agree
on their link flag and content; a real filesystem satisfies this because
os.path.islink and open are functions of the path alone. -/
def FS.Consistent (fs : FS) : Prop :=
  ∀ e1 ∈ fs.allFiles, ∀ e2 ∈ fs.allFiles,
    fullname e1 = fullname e2 → e1.isLink = e2.isLink ∧ e1.content = e2.content

/-!
## Enumeration (BrokenFinder.enumerate_shared_libs / enumerate_binaries)
-/

/-- The final value of self.found: enumerate_shared_libs adds the base
filename of every library-root file matching somatching, symlink or not. -/
def availableOf (fs : FS) : Finset String :=
  ((fs.libFiles.filter (fun e => soMatch e.name)).map Entry.name).toFinset

/-- The paths yielded by enumerate_shared_libs: matching library-root files
that are not symlinks, in walk order. -/
def libYields (fs : FS) : List String :=
  ((fs.libFiles.filter (fun e => soMatch e.name)).filter (fun e => !e.isLink)).map fullname

/-- The paths yielded by enumerate_binaries: binary-root files that are not
symlinks, unfiltered by name, in walk order. -/
def binYields (fs : FS) : List String :=
  (fs.binFiles.filter (fun e => !e.isLink)).map fullname

/-- Everything check puts on the job queue, in submission order:
the shared-library yields chained before the binary yields. -/
def submittedPaths (fs : FS) : List String := libYields fs ++ binYields fs

/-!
## Extraction (BrokenFinder.collect_needed)
-/

/-- The message passed to warn on a PermissionError. -/
def warnMsg (p : String) : String :=
  "Could not open " ++ p ++ "; please check permissions"

/-- A requirement edge: a needed name paired with the path of the object
that declared it (one list append to self.lib2required_by). -/
abbrev Edge := String × String

/-- One call of collect_needed on path p: an ok result carries the edges
appended to self.lib2required_by (in DT-NEEDED section order) and the
warnings printed; an error result is an uncaught exception escaping
collect_needed (only ELFError and PermissionError are handled). -/
def collectNeeded (fs : FS) (p : String) : Except Unit (List Edge × List String) :=
  match fs.lookup p with
  | some (Content.elf needed) => Except.ok (needed.map (fun n => (n, p)), [])
  | some Content.notElf => Except.ok ([], [])
  | some Content.permDenied => Except.ok ([], [warnMsg p])
  | some Content.otherError => Except.error ()
  | none => Except.error ()

/-- The single worker thread processing a list of paths in order,
accumulating edges and warnings; an uncaught exception at any path kills
the worker, so nothing is produced. -/
def processAll (fs : FS) : List String → Except Unit (List Edge × List String)
  | [] => Except.ok ([], [])
  | p :: ps =>
    match collectNeeded fs p with
    | Except.error e => Except.error e
    | Except.ok pr =>
      match processAll fs ps with
      | Except.error e => Except.error e
      | Except.ok pr2 => Except.ok (pr.1 ++ pr2.1, pr.2 ++ pr2.2)

/-- The keys of self.lib2required_by after processing the given edges. -/
def requirementKeys (es : List Edge) : Finset String := (es.map Prod.fst).toFinset

/-- The value self.lib2required_by holds at key n: the requiring paths of
all edges for n, in accumulation order. -/
def requiredBy (es : List Edge) (n : String) : List String :=
  (es.filter (fun e => e.fst == n)).map Prod.snd

/-!
## The check (BrokenFinder.check)
-/

structure CheckResult where
  found : Finset String
  edges : List Edge
  warns : List String
  missing : Finset String
deriving DecidableEq

/-- BrokenFinder.check on a snapshot: submit every enumerated path, let the
single worker drain the queue, then report
missing = keys of lib2required_by minus found.  The result is none when an
unhandled exception kills the worker, in which case job_queue.join never
returns and check produces nothing. -/
def runCheck (fs : FS) : Option CheckResult :=
  match processAll fs (submittedPaths fs) with
  | Except.error _ => none
  | Except.ok pr =>
    some ⟨availableOf fs, pr.1, pr.2, requirementKeys pr.1 \ availableOf fs⟩

/-!
## Queue transition system (Queue, BrokenFinder.worker, queue.join)

check runs exactly one worker thread; the main thread only puts paths and
finally joins.  A worker step (get, collect_needed, task_done) is atomic
with respect to the index because no other thread touches
lib2required_by.  joining is enabled exactly when every put item has been
processed, that is, when the pending list is empty (with the atomic worker
step there is never an item taken but not yet done).
-/

structure QSt where
  pending : List String
  processed : List String
deriving DecidableEq

inductive QEv where
  | put : String → QEv
  | work : QEv
deriving DecidableEq

/-- One event of the dispatcher: the main thread putting a path, or the
worker taking the oldest pending path, running collect_needed on it and
calling task_done.  A work step is only enabled when the queue is
nonempty (the worker blocks on get otherwise). -/
def qstep : QSt → QEv → Option QSt
  | s, QEv.put p => some ⟨s.pending ++ [p], s.processed⟩
  | s, QEv.work =>
    match s.pending with
    | [] => none
    | p :: rest => some ⟨rest, s.processed ++ [p]⟩

def qrun : QSt → List QEv → Option QSt
  | s, [] => some s
  | s, e :: es =>
    match qstep s e with
    | none => none
    | some s2 => qrun s2 es

/-- The paths put in a trace, in order. -/
def putsOf : List QEv → List String
  | [] => []
  | QEv.put p :: es => p :: putsOf es
  | QEv.work :: es => putsOf es

theorem qrun_invariant : ∀ (tr : List QEv) (s s2 : QSt), qrun s tr = some s2 →
    s2.processed ++ s2.pending = s.processed ++ s.pending ++ putsOf tr := by
  intro tr
  induction tr with
  | nil =>
      intro s s2 h
      simp only [qrun] at h
      injection h with h2
      subst h2
      simp [putsOf]
  | cons e es ih =>
      intro s s2 h
      cases e with
      | put p =>
          simp only [qrun, qstep] at h
          have hinv := ih _ _ h
          simp only [hinv, putsOf]
          simp
      | work =>
          cases hp : s.pending with
          | nil =>
              simp only [qrun, qstep, hp] at h
              exact Option.noConfusion h
          | cons p rest =>
              simp only [qrun, qstep, hp] at h
              have hinv := ih _ _ h
              simp only [hinv, putsOf, hp]
              simp

/-!
## Decidability instances and concrete snapshots used by the witnesses
-/

deriving instance DecidableEq for Except

instance (fs : FS) : Decidable fs.Consistent := by
  unfold FS.Consistent
  infer_instance

/-- A small snapshot exercising every behaviour: a real library, a library
requiring a missing name, a symlinked library, a binary requiring one
present and one missing name, a text file, an unreadable file and a
symlinked binary. -/
def fsW : FS :=
  ⟨[⟨"/usr/lib", "libfoo.so.1", false, Content.elf []⟩,
    ⟨"/usr/lib", "libbar.so", false, Content.elf ["libbaz.so.2"]⟩,
    ⟨"/usr/lib", "liblink.so", true, Content.notElf⟩],
   [⟨"/usr/bin", "app", false, Content.elf ["libfoo.so.1", "libqux.so"]⟩,
    ⟨"/usr/bin", "textfile", false, Content.notElf⟩,
    ⟨"/usr/bin", "secret", false, Content.permDenied⟩,
    ⟨"/usr/bin", "blink", true, Content.notElf⟩]⟩

/-- The check result on fsW. -/
def rW : CheckResult :=
  ⟨(["libfoo.so.1", "libbar.so", "liblink.so"] : List String).toFinset,
   [("libbaz.so.2", "/usr/lib/libbar.so"), ("libfoo.so.1", "/usr/bin/app"),
    ("libqux.so", "/usr/bin/app")],
   [warnMsg "/usr/bin/secret"],
   (["libbaz.so.2", "libqux.so"] : List String).toFinset⟩

/-- An interleaved dispatcher trace submitting exactly the paths of fsW. -/
def trW : List QEv :=
  [QEv.put "/usr/lib/libfoo.so.1", QEv.work, QEv.put "/usr/lib/libbar.so",
   QEv.put "/usr/bin/app", QEv.work, QEv.work, QEv.put "/usr/bin/textfile",
   QEv.put "/usr/bin/secret", QEv.work, QEv.work]

/-- The dispatcher state reached by trW. -/
def sW : QSt :=
  ⟨[], ["/usr/lib/libfoo.so.1", "/usr/lib/libbar.so", "/usr/bin/app",
        "/usr/bin/textfile", "/usr/bin/secret"]⟩

/-- A library root holding one file whose name matches the versioned
alternative of somatching only as a prefix: it does not end in ".so" nor
in ".so" followed by dot-separated numeric components. -/
def fs3 : FS := ⟨[⟨"/usr/lib", "a.so.1x", false, Content.notElf⟩], []⟩

/-- A binary root holding one file whose open raises an exception other
than PermissionError (for example it was removed after enumeration). -/
def fsErr : FS := ⟨[], [⟨"/usr/bin", "ghost", false, Content.otherError⟩]⟩

/-!
## Helper lemmas shared by the claim theorems
-/

theorem runCheck_inv (fs : FS) (r : CheckResult) (h : runCheck fs = some r) :
    r.found = availableOf fs ∧
    r.missing = requirementKeys r.edges \ availableOf fs ∧
    processAll fs (submittedPaths fs) = Except.ok (r.edges, r.warns) := by
  unfold runCheck at h
  cases hp : processAll fs (submittedPaths fs) with
  | error e => rw [hp] at h; exact Option.noConfusion h
  | ok pr =>
      rw [hp] at h
      have h2 : some (⟨availableOf fs, pr.1, pr.2,
          requirementKeys pr.1 \ availableOf fs⟩ : CheckResult) = some r := h
      injection h2 with h3
      subst h3
      exact ⟨rfl, rfl, rfl⟩

theorem link_not_submitted (fs : FS) (hc : fs.Consistent) (e : Entry)
    (he : e ∈ fs.allFiles) (hl : e.isLink = true) :
    fullname e ∉ submittedPaths fs := by
  intro hmem
  unfold submittedPaths libYields binYields at hmem
  rcases List.mem_append.mp hmem with h | h
  · rcases List.mem_map.mp h with ⟨e2, he2, hfe⟩
    rcases List.mem_filter.mp he2 with ⟨he2a, he2b⟩
    rcases List.mem_filter.mp he2a with ⟨he2c, _⟩
    have he2m : e2 ∈ fs.allFiles := List.mem_append.mpr (Or.inl he2c)
    have hcons := hc e2 he2m e he hfe
    rw [hcons.1, hl] at he2b
    simp at he2b
  · rcases List.mem_map.mp h with ⟨e2, he2, hfe⟩
    rcases List.mem_filter.mp he2 with ⟨he2c, he2b⟩
    have he2m : e2 ∈ fs.allFiles := List.mem_append.mpr (Or.inr he2c)
    have hcons := hc e2 he2m e he hfe
    rw [hcons.1, hl] at he2b
    simp at he2b

theorem mem_availableOf_iff (fs : FS) (n : String) :
    n ∈ availableOf fs ↔ ∃ e, e ∈ fs.libFiles ∧ soMatch e.name = true ∧ e.name = n := by
  unfold availableOf
  rw [List.mem_toFinset]
  constructor
  · intro h
    rcases List.mem_map.mp h with ⟨e, he, hn⟩
    rcases List.mem_filter.mp he with ⟨he2, hm⟩
    exact ⟨e, he2, hm, hn⟩
  · rintro ⟨e, he, hm, rfl⟩
    exact List.mem_map.mpr ⟨e, List.mem_filter.mpr ⟨he, hm⟩, rfl⟩

/-- The per-path edges as seen in a completed run. -/
def edgesOfOk (fs : FS) (p : String) : List Edge :=
  match collectNeeded fs p with
  | Except.ok pr => pr.1
  | Except.error _ => []

/-- The requirers of n contributed by each submitted path, in submission
order. -/
def requirersAcross (fs : FS) : List String → String → List String
  | [], _ => []
  | p :: ps, n => requiredBy (edgesOfOk fs p) n ++ requirersAcross fs ps n

theorem requiredBy_append (l1 l2 : List Edge) (n : String) :
    requiredBy (l1 ++ l2) n = requiredBy l1 n ++ requiredBy l2 n := by
  simp [requiredBy, List.filter_append]

theorem processAll_ok_requirers (fs : FS) :
    ∀ (ps : List String) (es : List Edge) (ws : List String),
    processAll fs ps = Except.ok (es, ws) →
    ∀ n, requiredBy es n = requirersAcross fs ps n := by
  intro ps
  induction ps with
  | nil =>
      intro es ws h n
      simp only [processAll] at h
      injection h with h2
      injection h2 with h3 h4
      subst h3
      simp [requirersAcross, requiredBy]
  | cons p ps ih =>
      intro es ws h n
      simp only [processAll] at h
      cases hcp : collectNeeded fs p with
      | error e => rw [hcp] at h; exact Except.noConfusion h
      | ok pra =>
          rw [hcp] at h
          cases has : processAll fs ps with
          | error e => rw [has] at h; exact Except.noConfusion h
          | ok prs =>
              rw [has] at h
              injection h with h2
              injection h2 with h3 h4
              subst h3
              rw [requiredBy_append]
              simp only [requirersAcross]
              congr 1
              · unfold edgesOfOk
                rw [hcp]
              · exact ih prs.1 prs.2 has n

theorem processAll_error_of_mem (fs : FS) (p : String)
    (hc : collectNeeded fs p = Except.error ()) :
    ∀ ps, p ∈ ps → processAll fs ps = Except.error () := by
  intro ps
  induction ps with
  | nil => intro hm; exact absurd hm (List.not_mem_nil p)
  | cons a as ih =>
      intro hm
      rcases List.mem_cons.mp hm with rfl | hm2
      · simp only [processAll, hc]
      · cases hca : collectNeeded fs a with
        | error e => cases e; simp only [processAll, hca]
        | ok pra =>
            simp only [processAll, hca, ih hm2]

/-!
## Claim theorems
-/

/-- Claim C1: for every scan that completes, the Missing Set reported by
check equals exactly the key set of the Requirement Index minus the
Available Set, computed from those two accumulated structures; and
consequently no name present in the Available Set ever appears in the
Missing Set, no matter how many objects require it. -/
theorem check_missing_exact (fs : FS) (r : CheckResult)
    (h : runCheck fs = some r) :
    r.missing = requirementKeys r.edges \ r.found ∧
    r.found = availableOf fs ∧
    ∀ n ∈ r.found, n ∉ r.missing := by
  obtain ⟨hf, hm, _⟩ := runCheck_inv fs r h
  refine ⟨by rw [hm, hf], hf, ?_⟩
  intro n hn hmem
  rw [hm] at hmem
  exact (Finset.mem_sdiff.mp hmem).2 (hf ▸ hn)

/-- Witness: on the snapshot fsW the available name libfoo.so.1 is
required by an object yet not reported missing. -/
theorem check_missing_exact_witness : "libfoo.so.1" ∉ rW.missing :=
  (check_missing_exact fsW rW (by decide)).2.2 "libfoo.so.1" (by decide)

/-- Claim C2: the Missing Set is computed only after every enumerated
candidate path has been fully processed.  In every execution of the
dispatcher in which the main thread puts exactly the enumerated paths
(in submission order, with worker steps interleaved arbitrarily) and the
join barrier fires, the worker has passed each submitted path to the
extractor exactly once, in submission order, and the Requirement Index
read after the barrier is the one obtained by processing all submitted
paths. -/
theorem check_join_barrier (fs : FS) (tr : List QEv) (s2 : QSt)
    (hputs : putsOf tr = submittedPaths fs)
    (hrun : qrun ⟨[], []⟩ tr = some s2)
    (hjoin : s2.pending = []) :
    s2.processed = submittedPaths fs ∧
    processAll fs s2.processed = processAll fs (submittedPaths fs) := by
  have h := qrun_invariant tr ⟨[], []⟩ s2 hrun
  rw [hjoin] at h
  simp at h
  rw [hputs] at h
  exact ⟨h, by rw [h]⟩

/-- Witness: a concrete interleaved trace over fsW that drains. -/
theorem check_join_barrier_witness : sW.processed = submittedPaths fsW :=
  (check_join_barrier fsW trW sW (by decide) (by decide) (by decide)).1

/-- Claim C8: idempotence.  Each run of the tool constructs a fresh
BrokenFinder, and check is a function of the filesystem snapshot alone,
so two runs of check against an unchanged snapshot yield identical
Missing Sets, with each missing name mapped to the same requiring
objects. -/
theorem check_idempotent (fs : FS) (r1 r2 : CheckResult)
    (h1 : runCheck fs = some r1) (h2 : runCheck fs = some r2) :
    r1.missing = r2.missing ∧
    ∀ n, requiredBy r1.edges n = requiredBy r2.edges n := by
  rw [h1] at h2
  injection h2 with h3
  subst h3
  exact ⟨rfl, fun _ => rfl⟩

/-- Witness: both hypotheses of check_idempotent hold at fsW. -/
theorem check_idempotent_witness : rW.missing = rW.missing :=
  (check_idempotent fsW rW rW (by decide) (by decide)).1

/-- Claim C9: only library-root scanning populates the Available Set: its
members all arise from pattern-matching basenames under the library roots,
it does not depend on the binary roots at all, and a required name absent
from it is reported missing even when a file of that name sits under a
binary root. -/
theorem available_only_from_libroots (fs : FS) :
    (∀ bf2 : List Entry, availableOf ⟨fs.libFiles, bf2⟩ = availableOf fs) ∧
    (∀ n ∈ availableOf fs, ∃ e, e ∈ fs.libFiles ∧ soMatch e.name = true ∧ e.name = n) ∧
    (∀ r n, runCheck fs = some r → n ∈ requirementKeys r.edges →
      n ∉ availableOf fs → n ∈ r.missing) := by
  refine ⟨fun bf2 => rfl, ?_, ?_⟩
  · intro n hn
    exact (mem_availableOf_iff fs n).mp hn
  · intro r n hr hk hn
    obtain ⟨_, hm, _⟩ := runCheck_inv fs r hr
    rw [hm]
    exact Finset.mem_sdiff.mpr ⟨hk, hn⟩

/-- Witness: libqux.so is required only under the binary root of fsW and
is reported missing. -/
theorem available_only_from_libroots_witness : "libqux.so" ∈ rW.missing :=
  (available_only_from_libroots fsW).2.2 rW "libqux.so" (by decide) (by decide) (by decide)

/-- Claim C10: collect_needed handles only the not-an-ELF parse failure
and the permission-denied open failure; any other exception (for example
FileNotFoundError for a file removed between enumeration and opening)
propagates out of collect_needed, killing the single worker, so the drain
barrier of check never completes and check produces no result. -/
theorem unhandled_error_hangs (fs : FS) (p : String)
    (hmem : p ∈ submittedPaths fs)
    (h : fs.lookup p = some Content.otherError) :
    collectNeeded fs p = Except.error () ∧ runCheck fs = none := by
  have hc : collectNeeded fs p = Except.error () := by
    unfold collectNeeded
    rw [h]
  refine ⟨hc, ?_⟩
  have herr := processAll_error_of_mem fs p hc (submittedPaths fs) hmem
  unfold runCheck
  rw [herr]

/-- Witness: a vanished binary-root file makes check hang (no result). -/
theorem unhandled_error_hangs_witness : runCheck fsErr = none :=
  (unhandled_error_hangs fsErr "/usr/bin/ghost" (by decide) (by decide)).2

/-- Claim C4: symlink handling.  On a consistent snapshot, a
pattern-matching symlink under a library root has its basename in the
Available Set but its path is never submitted for extraction; a symlink
under a binary root (broken or not) is skipped entirely: its path is
never submitted, and binary-root scanning never adds to the Available
Set, whose members all come from library-root entries. -/
theorem symlink_policy (fs : FS) (hc : fs.Consistent) :
    (∀ e, e ∈ fs.libFiles → soMatch e.name = true → e.isLink = true →
      e.name ∈ availableOf fs ∧ fullname e ∉ submittedPaths fs) ∧
    (∀ e, e ∈ fs.binFiles → e.isLink = true →
      fullname e ∉ submittedPaths fs) ∧
    (∀ n, n ∈ availableOf fs → ∃ e2, e2 ∈ fs.libFiles ∧ e2.name = n) := by
  refine ⟨?_, ?_, ?_⟩
  · intro e he hm hl
    constructor
    · exact (mem_availableOf_iff fs e.name).mpr ⟨e, he, hm, rfl⟩
    · exact link_not_submitted fs hc e (List.mem_append.mpr (Or.inl he)) hl
  · intro e he hl
    exact link_not_submitted fs hc e (List.mem_append.mpr (Or.inr he)) hl
  · intro n hn
    rcases (mem_availableOf_iff fs n).mp hn with ⟨e2, he2, _, hn2⟩
    exact ⟨e2, he2, hn2⟩

/-- Witness: the symlinked library of fsW is available but never
submitted. -/
theorem symlink_policy_witness :
    "liblink.so" ∈ availableOf fsW ∧
    fullname ⟨"/usr/lib", "liblink.so", true, Content.notElf⟩ ∉ submittedPaths fsW :=
  (symlink_policy fsW (by decide)).1 ⟨"/usr/lib", "liblink.so", true, Content.notElf⟩
    (by decide) (by decide) (by decide)

/-- Claim C5: a submitted file that is not a recognized ELF object
produces zero requirement edges and no warning, and the scan continues
exactly as if the file had not been submitted at all. -/
theorem notelf_silent (fs : FS) (p : String)
    (h : fs.lookup p = some Content.notElf) :
    collectNeeded fs p = Except.ok ([], []) ∧
    ∀ xs ys, processAll fs (xs ++ p :: ys) = processAll fs (xs ++ ys) := by
  have hcp : collectNeeded fs p = Except.ok ([], []) := by
    unfold collectNeeded
    rw [h]
  refine ⟨hcp, ?_⟩
  intro xs ys
  induction xs with
  | nil =>
      simp only [List.nil_append, processAll, hcp]
      cases hys : processAll fs ys with
      | error e => rfl
      | ok pr => simp
  | cons x xs ih =>
      have ih2 : processAll fs (xs.append (p :: ys)) = processAll fs (xs.append ys) := ih
      simp only [List.cons_append, processAll, ih, ih2]

/-- Witness: the text file under the binary root of fsW yields no edge
and no warning. -/
theorem notelf_silent_witness :
    collectNeeded fsW "/usr/bin/textfile" = Except.ok ([], []) :=
  (notelf_silent fsW "/usr/bin/textfile" (by decide)).1

/-- Claim C6: a submitted file whose open raises PermissionError produces
exactly one warning and zero requirement edges, and does not halt the
scan: the files around it are processed exactly as without it, with the
single warning spliced into the warning stream. -/
theorem permdenied_one_warning (fs : FS) (p : String)
    (h : fs.lookup p = some Content.permDenied) :
    collectNeeded fs p = Except.ok ([], [warnMsg p]) ∧
    ∀ xs ys es ws es2 ws2,
      processAll fs xs = Except.ok (es, ws) →
      processAll fs ys = Except.ok (es2, ws2) →
      processAll fs (xs ++ p :: ys) = Except.ok (es ++ es2, ws ++ warnMsg p :: ws2) := by
  have hcp : collectNeeded fs p = Except.ok ([], [warnMsg p]) := by
    unfold collectNeeded
    rw [h]
  refine ⟨hcp, ?_⟩
  intro xs
  induction xs with
  | nil =>
      intro ys es ws es2 ws2 hx hy
      simp only [processAll] at hx
      injection hx with hx2
      injection hx2 with h3 h4
      subst h3
      subst h4
      simp only [List.nil_append, processAll, hcp, hy]
      rfl
  | cons a as ih =>
      intro ys es ws es2 ws2 hx hy
      simp only [processAll] at hx
      cases hca : collectNeeded fs a with
      | error e => rw [hca] at hx; exact Except.noConfusion hx
      | ok pra =>
          rw [hca] at hx
          cases has : processAll fs as with
          | error e => rw [has] at hx; exact Except.noConfusion hx
          | ok prs =>
              rw [has] at hx
              injection hx with hx2
              injection hx2 with h3 h4
              subst h3
              subst h4
              have hrec := ih ys prs.1 prs.2 es2 ws2 has hy
              have hrec2 : processAll fs (as.append (p :: ys)) =
                  Except.ok (prs.1 ++ es2, prs.2 ++ warnMsg p :: ws2) := hrec
              show processAll fs ((a :: as) ++ p :: ys) = _
              simp only [List.cons_append, processAll, hca, hrec, hrec2]
              simp

/-- Witness: the unreadable file under the binary root of fsW yields no
edge and exactly its one warning. -/
theorem permdenied_one_warning_witness :
    collectNeeded fsW "/usr/bin/secret" = Except.ok ([], [warnMsg "/usr/bin/secret"]) :=
  (permdenied_one_warning fsW "/usr/bin/secret" (by decide)).1

/-- Claim C7: for every successfully parsed object, each DT-NEEDED entry
contributes one edge in section order, duplicates preserved; and in a
completed run, the requirer list of every name is the concatenation, in
submission order, of the per-object contributions. -/
theorem needed_order (fs : FS) (ps : List String) (es : List Edge) (ws : List String)
    (h : processAll fs ps = Except.ok (es, ws)) :
    (∀ p needed, fs.lookup p = some (Content.elf needed) →
      collectNeeded fs p = Except.ok (needed.map (fun m => (m, p)), [])) ∧
    (∀ n, requiredBy es n = requirersAcross fs ps n) := by
  constructor
  · intro p needed hp
    unfold collectNeeded
    rw [hp]
  · exact processAll_ok_requirers fs ps es ws h

/-- Witness: the requirer lists of a completed run over fsW decompose per
submitted path, in submission order. -/
theorem needed_order_witness :
    requiredBy rW.edges "libfoo.so.1" =
      requirersAcross fsW (submittedPaths fsW) "libfoo.so.1" :=
  (needed_order fsW (submittedPaths fsW) rW.edges rW.warns (by decide)).2 "libfoo.so.1"

/-- Whether the list starts with ".so" followed by characters that run to
the end as one or more dot-separated numeric version components. -/
def startVer : List Char → Bool
  | '.' :: 's' :: 'o' :: v => verPat.fmatch v
  | _ => false

/-- Whether some suffix of the list starts that way, that is, the list
ends in ".so" followed by dot-separated numeric version components. -/
def suffixVer : List Char → Bool
  | [] => false
  | c :: rest => startVer (c :: rest) || suffixVer rest

/-- The shared-object naming pattern as the specification words it: the
filename ends in ".so", or ends in ".so" followed by one or more
dot-separated numeric version components.  This definition follows the
wording of the specification and is compared against soMatch, the test
the source actually performs. -/
def specSoEnds (s : String) : Bool :=
  ['.', 's', 'o'].isSuffixOf s.data || suffixVer s.data

/-- Claim C3 counterexample: the versioned alternative of somatching has
no end anchor and re.match needs only a prefix match, so the library-root
file a.so.1x is added to the Available Set although its name neither ends
in ".so" nor ends in ".so" followed by dot-separated numeric version
components. -/
theorem so_pattern_counterexample :
    "a.so.1x" ∈ availableOf fs3 ∧ specSoEnds "a.so.1x" = false :=
  ⟨by decide, by decide⟩

/-- Claim C3 as amended: a library-root file contributes its basename to
the Available Set, symlink or not, exactly when its name matches
somatching under the prefix semantics of re.match: the name ends in
".so", or contains ".so." immediately followed by a digit with arbitrary
text allowed after that digit, the part before ".so" being
newline-free. -/
theorem so_pattern_amended (fs : FS) :
    (∀ n, n ∈ availableOf fs ↔ ∃ e, e ∈ fs.libFiles ∧ e.name = n ∧ looseSoName n) ∧
    (∀ e, e ∈ fs.libFiles → soMatch e.name = true → e.name ∈ availableOf fs) := by
  constructor
  · intro n
    rw [mem_availableOf_iff]
    constructor
    · rintro ⟨e, he, hm, rfl⟩
      exact ⟨e, he, rfl, (soMatch_iff e.name).mp hm⟩
    · rintro ⟨e, he, rfl, hl⟩
      exact ⟨e, he, (soMatch_iff e.name).mpr hl, rfl⟩
  · intro e he hm
    exact (mem_availableOf_iff fs e.name).mpr ⟨e, he, hm, rfl⟩

/-- Witness: the amended characterization applied at the snapshot fs3. -/
theorem so_pattern_amended_witness : "a.so.1x" ∈ availableOf fs3 :=
  (so_pattern_amended fs3).2 ⟨"/usr/lib", "a.so.1x", false, Content.notElf⟩
    (by decide) (by decide)
